import Mathlib

/-!
Verification of the formtext form-state library.

The development shallowly embeds the library's core:
* a structural model of JavaScript values (`JSVal`) for the reducer held in
  the `FormProvider` component and for the `isFieldMeta` classifier;
* a heap model of JavaScript object graphs (`Heap`, `HVal`) for the
  breadth-first validity walk `allFieldsMeetCondition` of `useFormValidity`,
  where object identity (and hence aliasing) matters for the visited set.

JavaScript objects are modelled as insertion-ordered association lists with
unique keys; `oSet` is the computed-key update performed by an object spread
literal, `oMergeL` is the spread-merge of two objects.
-/

set_option linter.unusedVariables false

/-- A structural model of the JavaScript values the library manipulates:
undefined, null, booleans, numbers, strings, plain objects (insertion-ordered
field lists) and arrays. -/
inductive JSVal where
  | vUndefined : JSVal
  | vNull : JSVal
  | vBool : Bool → JSVal
  | vNum : Int → JSVal
  | vStr : String → JSVal
  | vObj : List (String × JSVal) → JSVal
  | vArr : List JSVal → JSVal

/-- An object body: an insertion-ordered list of fields with unique keys. -/
abbrev JSObj := List (String × JSVal)

/-- Property read `o[k]`, returning the first binding of `k` (objects have
unique keys, so the first binding is the binding). -/
def oGet? {α : Type} : List (String × α) → String → Option α
  | [], _ => none
  | p :: t, k => if p.1 == k then some p.2 else oGet? t k

/-- `Object.hasOwn(o, k)`. -/
def oHas {α : Type} (o : List (String × α)) (k : String) : Bool :=
  o.any (fun p => p.1 == k)

/-- The computed-key update `{...o, [k]: v}` of a JavaScript object literal:
if `k` is already bound its value is replaced in place, otherwise the binding
is appended. -/
def oSet {α : Type} : List (String × α) → String → α → List (String × α)
  | [], k, v => [(k, v)]
  | p :: t, k, v => if p.1 == k then (k, v) :: t else p :: oSet t k v

/-- The object-spread merge `{...a, ...b}`: fold the bindings of `b` over `a`
with `oSet`, so bindings of `b` override bindings of `a` in place and new keys
are appended in order. -/
def oMergeL {α : Type} (a b : List (String × α)) : List (String × α) :=
  b.foldl (fun acc p => oSet acc p.1 p.2) a

/-- The own enumerable entries contributed when a value is spread into an
object literal: an object contributes its fields, an array its index-keyed
elements, a string its index-keyed characters, and every other primitive
contributes nothing. -/
def spreadEntries : JSVal → List (String × JSVal)
  | .vObj fs => fs
  | .vArr es => es.enum.map (fun p => (toString p.1, p.2))
  | .vStr s => s.toList.enum.map (fun p => (toString p.1, JSVal.vStr (String.mk [p.2])))
  | _ => []

/-- Property access `v[k]` on an arbitrary value, `undefined` when `v` is not
an object or lacks the key (index access on arrays and strings is not needed
by the embedded code paths). -/
def jsProp (v : JSVal) (k : String) : JSVal :=
  match v with
  | .vObj fs => (oGet? fs k).getD .vUndefined
  | _ => .vUndefined

/-- Optional-chaining property access `v?.[k]`: short-circuits to `undefined`
on `null`/`undefined`, otherwise reads the property. -/
def jsOptProp (v : JSVal) (k : String) : JSVal :=
  match v with
  | .vUndefined => .vUndefined
  | .vNull => .vUndefined
  | w => jsProp w k

/-- `Object.keys(v)`. -/
def objKeys : JSVal → List String
  | .vObj fs => fs.map (·.1)
  | .vArr es => (List.range es.length).map toString
  | .vStr s => (List.range s.length).map toString
  | _ => []

/-- The result of the JavaScript `typeof` operator on a modelled value. -/
def typeofStr : JSVal → String
  | .vUndefined => "undefined"
  | .vNull => "object"
  | .vBool _ => "boolean"
  | .vNum _ => "number"
  | .vStr _ => "string"
  | .vObj _ => "object"
  | .vArr _ => "object"

/-- The four keys whose presence `isFieldMeta` tests. -/
def isFieldMetaKeys : List String := ["id", "required", "touched", "errorMessage"]

/-- Embedding of `isFieldMeta` (src/src/lib/utils/isFieldMeta.ts): it returns
`typeof item === 'object' && 'id' in item && 'required' in item &&
'touched' in item && 'errorMessage' in item`.  The `in` operator throws a
TypeError when its right operand is `null` (which has `typeof` `'object'`),
so the embedding is `Except`-valued; on arrays the four named keys are absent.
The function never reads `__typename`. -/
def isFieldMeta (item : JSVal) : Except String Bool :=
  if typeofStr item == "object" then
    match item with
    | .vNull => .error "TypeError: Cannot use \x27in\x27 operator to search for \x27id\x27 in null"
    | .vObj fs => .ok (isFieldMetaKeys.all (fun k => fs.any (fun p => p.1 == k)))
    | _ => .ok false
  else .ok false

/-- Pure characterisation used to state what `isFieldMeta` computes: `v` is a
plain object carrying all four of the keys `id`, `required`, `touched`,
`errorMessage`. -/
def fourKeysObj : JSVal → Bool
  | .vObj fs => isFieldMetaKeys.all (fun k => fs.any (fun p => p.1 == k))
  | _ => false

/-- The global form state held by `FormProvider`: two insertion-ordered maps
from form name to a plain object (form values, and form field metadata). -/
structure FormState where
  forms : List (String × JSObj)
  formsMeta : List (String × JSObj)

/-- The closed action set of the reducer (src/src/lib/types/form-types.ts). -/
inductive FormAction where
  | setFormValue (formKey : String) (formValue : JSObj)
  | setFormFieldValue (formKey : String) (fieldKey : String) (fieldValue : JSVal)
  | setFormMetaValue (formKey : String) (metaValue : JSObj)
  | setFormMetaFieldValue (formKey : String) (fieldKey : String) (metaFieldValue : JSVal)
  | resetForm (formKey : String)
  | resetFormMeta (formKey : String)
  | reset

/-- `Object.hasOwn(m, k) ? m[k] : {}` on a map whose values are objects. -/
def getOrEmpty (m : List (String × JSObj)) (k : String) : JSObj :=
  (oGet? m k).getD []

/-- Embedding of the reducer defined inside `FormProvider`.  `initialState` is
the caller-supplied initial state captured at provider creation; `reset`
returns it wholesale.  Each case rebuilds the state with object spreads,
treating a missing form key as the empty object. -/
def formReducer (initialState : FormState) (state : FormState) (action : FormAction) : FormState :=
  match action with
  | .setFormValue f fv =>
      { state with forms := oSet state.forms f (oMergeL (getOrEmpty state.forms f) fv) }
  | .setFormFieldValue f k v =>
      { state with forms := oSet state.forms f (oSet (getOrEmpty state.forms f) k v) }
  | .setFormMetaValue f mv =>
      { state with formsMeta := oSet state.formsMeta f (oMergeL (getOrEmpty state.formsMeta f) mv) }
  | .setFormMetaFieldValue f k mfv =>
      let base := getOrEmpty state.formsMeta f
      let inner := oMergeL (spreadEntries ((oGet? base k).getD .vUndefined)) (spreadEntries mfv)
      { state with formsMeta := oSet state.formsMeta f (oSet base k (.vObj inner)) }
  | .resetForm f =>
      { state with forms := oSet state.forms f [] }
  | .resetFormMeta f =>
      { state with formsMeta := oSet state.formsMeta f [] }
  | .reset => initialState

/-- The metadata object dispatched by `setAndShowError` in `useFormHandler`:
`{ __typename: 'FieldMeta', errorMessage, showError: errorMessage !== undefined }`. -/
def setAndShowErrorMeta (errorMessage : Option String) : JSVal :=
  .vObj [("__typename", .vStr "FieldMeta"),
         ("errorMessage", match errorMessage with | some e => .vStr e | none => .vUndefined),
         ("showError", .vBool errorMessage.isSome)]

/-- Embedding of `setAndShowError` of `useFormHandler`: one dispatch of
`SET_FORM_META_FIELD_VALUE` with the error metadata object. -/
def setAndShowError (initialState state : FormState) (formKey fieldKey : String)
    (errorMessage : Option String) : FormState :=
  formReducer initialState state
    (.setFormMetaFieldValue formKey fieldKey (setAndShowErrorMeta errorMessage))

/-- Embedding of `handleChange` of `useFormHandler`: three dispatches in
order — the field value set, the `touched: true` metadata set, then
`setAndShowError`. -/
def handleChange (initialState state : FormState) (formKey fieldKey : String)
    (fieldValue : JSVal) (errorMessage : Option String) : FormState :=
  let s1 := formReducer initialState state (.setFormFieldValue formKey fieldKey fieldValue)
  let s2 := formReducer initialState s1
    (.setFormMetaFieldValue formKey fieldKey
      (.vObj [("__typename", .vStr "FieldMeta"), ("touched", .vBool true)]))
  setAndShowError initialState s2 formKey fieldKey errorMessage

/-- Read `state.forms[f][k]` (`undefined` when absent). -/
def readFormField (s : FormState) (f k : String) : JSVal :=
  match oGet? s.forms f with
  | some o => (oGet? o k).getD .vUndefined
  | none => .vUndefined

/-- Read `state.formsMeta[f][k]` (`undefined` when absent). -/
def readMetaField (s : FormState) (f k : String) : JSVal :=
  match oGet? s.formsMeta f with
  | some o => (oGet? o k).getD .vUndefined
  | none => .vUndefined

/-- The message of the missing-metadata error thrown by `useFormValidity`. -/
def missingMetaMsg (formName : String) : String :=
  "Form metadata for form \x27" ++ formName ++
    "\x27 is undefined. Did you forget to add it to the FormProvider?"

/-- Embedding of the earlier, flat `useFormValidity` found in the repository
(src/unnamed/part_003): it gates the touched check on `validateTouch`
(checked unless `validateTouch === false`) and inspects only top-level
metadata entries. -/
def useFormValidityLegacy (formsMeta : List (String × JSVal)) (formName : String)
    (validateTouch : Option Bool) : Except String Bool :=
  match oGet? formsMeta formName with
  | none => .error (missingMetaMsg formName)
  | some .vUndefined => .error (missingMetaMsg formName)
  | some fm =>
      let metaKeys := objKeys fm
      let requiredFields := metaKeys.filter (fun k =>
        match jsOptProp (jsProp fm k) "required" with
        | .vBool true => true
        | _ => false)
      let haveBeenTouched :=
        match validateTouch with
        | none => requiredFields.all (fun k =>
            match jsOptProp (jsProp fm k) "touched" with
            | .vBool true => true
            | _ => false)
        | some true => requiredFields.all (fun k =>
            match jsOptProp (jsProp fm k) "touched" with
            | .vBool true => true
            | _ => false)
        | some false => true
      let haveNoErrors := requiredFields.all (fun k =>
        match jsOptProp (jsProp fm k) "errorMessage" with
        | .vUndefined => true
        | _ => false)
      .ok (haveBeenTouched && haveNoErrors)

/-- Primitive values that may appear inside a form metadata graph (the
`FormFieldMeta` type contains objects, arrays and the `FieldMeta` field
primitives: undefined, booleans, numbers, strings). -/
inductive HPrim where
  | undefinedv : HPrim
  | boolv : Bool → HPrim
  | numv : Int → HPrim
  | strv : String → HPrim
deriving DecidableEq, Repr

/-- A value in the heap model: a primitive, or a reference to a heap object.
References model JavaScript object identity, so shared (aliased) sub-objects
are representable. -/
inductive HVal where
  | prim : HPrim → HVal
  | ref : Nat → HVal
deriving DecidableEq, Repr

/-- A heap node: a plain object with ordered fields, or an array. -/
inductive HNode where
  | hObj : List (String × HVal) → HNode
  | hArr : List HVal → HNode
deriving DecidableEq, Repr

/-- A finite heap: an association list from addresses to nodes. -/
abbrev Heap := List (Nat × HNode)

/-- Look an address up in the heap. -/
def hLookup (h : Heap) (a : Nat) : Option HNode :=
  (h.find? (fun p => p.1 == a)).map (·.2)

/-- The addresses allocated in a heap. -/
def hAddrs (h : Heap) : List Nat := h.map (·.1)

/-- The values stored immediately inside a node. -/
def nodeVals : HNode → List HVal
  | .hObj fs => fs.map (·.2)
  | .hArr es => es

/-- The addresses referenced immediately from a node. -/
def refTargets (n : HNode) : List Nat :=
  (nodeVals n).filterMap (fun v => match v with | .ref a => some a | _ => none)

/-- A heap is well formed when every reference stored in one of its nodes
points to an allocated address (JavaScript references cannot dangle). -/
def WFHeap (h : Heap) : Prop :=
  ∀ p ∈ h, ∀ b ∈ refTargets p.2, b ∈ hAddrs h

instance (h : Heap) : Decidable (WFHeap h) :=
  inferInstanceAs (Decidable (∀ p ∈ h, ∀ b ∈ refTargets p.2, b ∈ hAddrs h))

/-- `typeof v === 'object'` for heap values (the metadata domain contains no
`null`, per the `FormFieldMeta` type, so exactly the references qualify). -/
def typeofIsObject : HVal → Bool
  | .ref _ => true
  | .prim _ => false

/-- `isFieldMeta` applied to a heap value: true exactly when the value
references a plain object carrying all four of the keys `id`, `required`,
`touched`, `errorMessage` (arrays carry index keys only, so they fail). -/
def isFieldMetaH (h : Heap) : HVal → Bool
  | .ref a =>
    match hLookup h a with
    | some (.hObj fs) => isFieldMetaKeys.all (fun k => fs.any (fun p => p.1 == k))
    | some (.hArr _) => false
    | none => false
  | .prim _ => false

/-- The own enumerable entries the `for ... in` loop of
`allFieldsMeetCondition` iterates for a dequeued value: the fields of a
referenced object, the index-keyed elements of a referenced array, nothing
for a primitive. -/
def entriesOf (h : Heap) : HVal → List (String × HVal)
  | .ref a =>
    match hLookup h a with
    | some (.hObj fs) => fs
    | some (.hArr es) => es.enum.map (fun p => (toString p.1, p.2))
    | none => []
  | .prim _ => []

/-- `Array.isArray(v)`: the elements when `v` references an array node. -/
def arrRefElems (h : Heap) : HVal → Option (List HVal)
  | .ref a =>
    match hLookup h a with
    | some (.hArr es) => some es
    | _ => none
  | .prim _ => none

/-- `visited.add(e)` on a JavaScript `Set` modelled as a duplicate-free list. -/
def setAdd (vis : List HVal) (e : HVal) : List HVal :=
  if e ∈ vis then vis else e :: vis

/-- One array element of the `Array.isArray` branch of
`allFieldsMeetCondition`: leaves are condition-checked (a failure aborts the
whole walk with `false`), unvisited objects are pushed. -/
def elemStep (h : Heap) (cond : HVal → Bool) (vis : List HVal) (x : HVal) :
    Except Unit (List HVal) :=
  if isFieldMetaH h x then
    if cond x then .ok [] else .error ()
  else if typeofIsObject x then
    if x ∈ vis then .ok [] else .ok [x]
  else .ok []

/-- Fold `elemStep` over the elements of an array-valued property. -/
def stepElems (h : Heap) (cond : HVal → Bool) (vis : List HVal) :
    List HVal → Except Unit (List HVal)
  | [] => .ok []
  | x :: rest =>
    match elemStep h cond vis x with
    | .error e => .error e
    | .ok l =>
      match stepElems h cond vis rest with
      | .error e => .error e
      | .ok ls => .ok (l ++ ls)

/-- One property value of the dequeued node: arrays are iterated in place,
leaf `FieldMeta` objects are condition-checked, other unvisited objects are
pushed onto the queue, primitives are skipped. -/
def processValue (h : Heap) (cond : HVal → Bool) (vis : List HVal) (val : HVal) :
    Except Unit (List HVal) :=
  match arrRefElems h val with
  | some es => stepElems h cond vis es
  | none =>
    if typeofIsObject val then
      if isFieldMetaH h val then
        if cond val then .ok [] else .error ()
      else if val ∈ vis then .ok [] else .ok [val]
    else .ok []

/-- Fold `processValue` over a list of property values. -/
def stepVals (h : Heap) (cond : HVal → Bool) (vis : List HVal) :
    List HVal → Except Unit (List HVal)
  | [] => .ok []
  | v :: rest =>
    match processValue h cond vis v with
    | .error e => .error e
    | .ok l =>
      match stepVals h cond vis rest with
      | .error e => .error e
      | .ok ls => .ok (l ++ ls)

/-- Process one dequeued value: iterate its own enumerable properties,
returning either an early `false` (`.error`) or the values to enqueue. -/
def processNode (h : Heap) (cond : HVal → Bool) (vis : List HVal) (e : HVal) :
    Except Unit (List HVal) :=
  stepVals h cond vis ((entriesOf h e).map (·.2))

/-- The breadth-first loop of `allFieldsMeetCondition`: dequeue from the
front, add the dequeued value to the visited set, process its properties and
push discovered objects at the back.  The `fuel` argument is an artificial
bound on the number of iterations; an exhausted fuel yields `none` (the
termination theorem shows `bfsFuel` below always suffices). -/
def bfsLoop (h : Heap) (cond : HVal → Bool) : Nat → List HVal → List HVal → Option Bool
  | _, [], _ => some true
  | 0, _ :: _, _ => none
  | fuel + 1, e :: rest, vis =>
    let vis' := setAdd vis e
    match processNode h cond vis' e with
    | .error _ => some false
    | .ok pushed => bfsLoop h cond fuel (rest ++ pushed) vis'

/-- The number of own enumerable properties of a node. -/
def nodeEnt : HNode → Nat
  | .hObj fs => fs.length
  | .hArr es => es.length

/-- The largest property count over the heap. -/
def maxEnt (h : Heap) : Nat := (h.map (fun p => nodeEnt p.2)).foldr max 0

/-- The largest array length over the heap. -/
def maxArr (h : Heap) : Nat :=
  (h.map (fun p => match p.2 with | .hArr es => es.length | _ => 0)).foldr max 0

/-- An upper bound on the number of values one loop iteration can enqueue. -/
def pushBound (h : Heap) : Nat := maxEnt h * (1 + maxArr h)

/-- The base of the termination measure: strictly larger than `pushBound`. -/
def bfsB (h : Heap) : Nat := pushBound h + 2

/-- Fuel sufficient for the breadth-first walk over any start value. -/
def bfsFuel (h : Heap) : Nat := bfsB h ^ (h.length + 1)

/-- Embedding of `allFieldsMeetCondition` of useFormValidity.tsx: run the
breadth-first walk from the form metadata value with sufficient fuel. -/
def allFieldsMeetCondition (h : Heap) (formMeta : HVal) (cond : HVal → Bool) : Option Bool :=
  bfsLoop h cond (bfsFuel h) [formMeta] []

/-- Read a field of a (leaf) heap object, `undefined` when absent. -/
def hGetField (h : Heap) (m : HVal) (k : String) : HVal :=
  match m with
  | .ref a =>
    match hLookup h a with
    | some (.hObj fs) => (oGet? fs k).getD (.prim .undefinedv)
    | _ => .prim .undefinedv
  | .prim _ => .prim .undefinedv

/-- JavaScript truthiness of a modelled heap value. -/
def truthy : HVal → Bool
  | .prim .undefinedv => false
  | .prim (.boolv b) => b
  | .prim (.numv n) => n != 0
  | .prim (.strv s) => s != ""
  | .ref _ => true

/-- The nullish-coalescing operator `a ?? b` (no `null` in the domain). -/
def nullishOr (a b : HVal) : HVal :=
  if a = .prim .undefinedv then b else a

/-- The touched condition of `useFormValidity`:
`(meta) => meta.required !== true || (meta.touched ?? false)`. -/
def condTouched (h : Heap) (m : HVal) : Bool :=
  !(hGetField h m "required" == .prim (.boolv true)) ||
    truthy (nullishOr (hGetField h m "touched") (.prim (.boolv false)))

/-- The error-freedom condition of `useFormValidity`:
`(meta) => meta.required !== true || meta.errorMessage === undefined`. -/
def condNoError (h : Heap) (m : HVal) : Bool :=
  !(hGetField h m "required" == .prim (.boolv true)) ||
    (hGetField h m "errorMessage" == .prim .undefinedv)

/-- Embedding of the current `useFormValidity`
(src/src/lib/hooks/useFormValidity.tsx): look the form metadata up (throwing
the missing-metadata error when it is `undefined`), then evaluate the two
walks and report their conjunction.  The `validateTouch` parameter is
accepted, as in the source, but never read by the effect body.  The inner
`Option` is the walk fuel bookkeeping; the termination theorem shows it is
always `some` on well-formed heaps. -/
def useFormValidity (h : Heap) (formsMeta : List (String × HVal)) (formName : String)
    (validateTouch : Option Bool) : Except String (Option Bool) :=
  match oGet? formsMeta formName with
  | none => .error (missingMetaMsg formName)
  | some (.prim .undefinedv) => .error (missingMetaMsg formName)
  | some fm =>
    match allFieldsMeetCondition h fm (condTouched h),
          allFieldsMeetCondition h fm (condNoError h) with
    | some t, some e => .ok (some (t && e))
    | _, _ => .ok none

/-- Example heap for C1: one form whose single leaf carries all four
discriminator keys and is required, untouched and error-free. -/
def h1 : Heap :=
  [(0, .hObj [("a", .ref 1)]),
   (1, .hObj [("id", .prim (.numv 1)), ("required", .prim (.boolv true)),
              ("touched", .prim (.boolv false)), ("errorMessage", .prim .undefinedv)])]

/-- The forms-meta map for C1 in the heap model. -/
def fm1 : List (String × HVal) := [("myForm", .ref 0)]

/-- The forms-meta map for C1 in the structural model (same data). -/
def fm1S : List (String × JSVal) :=
  [("myForm", .vObj [("a", .vObj [("id", .vNum 1), ("required", .vBool true),
    ("touched", .vBool false), ("errorMessage", .vUndefined)])])]

/-- C3 scenario 1: `{a: {required: true, touched: true}, b: {required: false,
touched: false}}`. -/
def h3a : Heap :=
  [(0, .hObj [("a", .ref 1), ("b", .ref 2)]),
   (1, .hObj [("required", .prim (.boolv true)), ("touched", .prim (.boolv true))]),
   (2, .hObj [("required", .prim (.boolv false)), ("touched", .prim (.boolv false))])]

/-- C3 scenario 2: as scenario 1 with `a.touched` changed to `false`. -/
def h3b : Heap :=
  [(0, .hObj [("a", .ref 1), ("b", .ref 2)]),
   (1, .hObj [("required", .prim (.boolv true)), ("touched", .prim (.boolv false))]),
   (2, .hObj [("required", .prim (.boolv false)), ("touched", .prim (.boolv false))])]

/-- C3 scenario 3: as scenario 1 with `a.errorMessage = "x"` added (touched
true variant). -/
def h3c : Heap :=
  [(0, .hObj [("a", .ref 1), ("b", .ref 2)]),
   (1, .hObj [("required", .prim (.boolv true)), ("touched", .prim (.boolv true)),
              ("errorMessage", .prim (.strv "x"))]),
   (2, .hObj [("required", .prim (.boolv false)), ("touched", .prim (.boolv false))])]

/-- C3 scenario 3 with `a.touched` false. -/
def h3d : Heap :=
  [(0, .hObj [("a", .ref 1), ("b", .ref 2)]),
   (1, .hObj [("required", .prim (.boolv true)), ("touched", .prim (.boolv false)),
              ("errorMessage", .prim (.strv "x"))]),
   (2, .hObj [("required", .prim (.boolv false)), ("touched", .prim (.boolv false))])]

/-- Witness heap for the termination theorem: the node at address 3 is shared
by two parents (aliasing) and points back to the root (a cycle). -/
def h9 : Heap :=
  [(0, .hObj [("x", .ref 1), ("y", .ref 2)]),
   (1, .hObj [("c", .ref 3)]),
   (2, .hObj [("c", .ref 3)]),
   (3, .hObj [("back", .ref 0)])]

/-- Demo heap for C10: the only child of the root is a leaf built by
`useFormHandler` (`{__typename: 'FieldMeta', touched: true}`). -/
def h10 : Heap :=
  [(0, .hObj [("field1", .ref 1)]),
   (1, .hObj [("__typename", .prim (.strv "FieldMeta")), ("touched", .prim (.boolv true))])]

/-- Example state for the reducer witnesses. -/
def exState : FormState :=
  { forms := [("login", [("user", .vStr "ada")]), ("other", [("p", .vNum 1)])],
    formsMeta := [("login", [("user", .vObj [("touched", .vBool false)])])] }

/-- The heap addresses as queue values: the candidates for the visited set
that matter to the termination measure. -/
def domainVals (h : Heap) : Finset HVal := ((hAddrs h).map HVal.ref).toFinset

/-- The number of allocated objects not yet visited. -/
def uCount (h : Heap) (vis : List HVal) : Nat :=
  (domainVals h \ vis.toFinset).card

/-- The weight exponent of one queue entry: unvisited count, plus one when
the entry itself is already visited (it was enqueued strictly before the
iteration that visited it, when strictly more objects were unvisited). -/
def phiW (h : Heap) (vis : List HVal) (e : HVal) : Nat :=
  uCount h vis + (if e ∈ vis then 1 else 0)

/-- The termination measure of the breadth-first loop: a sum of powers of
`bfsB h`, one per queue entry. -/
def PhiM (h : Heap) (q vis : List HVal) : Nat :=
  (q.map (fun e => bfsB h ^ phiW h vis e)).sum

theorem oGet?_oSet_self {α : Type} (o : List (String × α)) (k : String) (v : α) :
    oGet? (oSet o k v) k = some v := by
  induction o with
  | nil => simp [oSet, oGet?]
  | cons p t ih =>
    by_cases hp : p.1 == k
    · simp [oSet, oGet?, hp]
    · simp [oSet, oGet?, hp, ih]

theorem oGet?_oSet_ne {α : Type} (o : List (String × α)) (k k' : String) (v : α)
    (hne : k' ≠ k) : oGet? (oSet o k v) k' = oGet? o k' := by
  induction o with
  | nil =>
    have : (k == k') = false := by
      simp [beq_eq_false_iff_ne]
      exact fun he => hne he.symm
    simp [oSet, oGet?, this]
  | cons p t ih =>
    by_cases hp : p.1 == k
    · have hp' : p.1 = k := by simpa [beq_iff_eq] using hp
      have : (k == k') = false := by
        simp [beq_eq_false_iff_ne]
        exact fun he => hne he.symm
      simp [oSet, oGet?, hp, this, hp']
    · simp [oSet, oGet?, hp, ih]

theorem oGet?_errchain_touched (o : JSObj) (a b c : JSVal) :
    oGet? (oSet (oSet (oSet o "__typename" a) "errorMessage" b) "showError" c) "touched"
      = oGet? o "touched" := by
  rw [oGet?_oSet_ne _ _ _ _ (by decide), oGet?_oSet_ne _ _ _ _ (by decide),
    oGet?_oSet_ne _ _ _ _ (by decide)]

theorem oGet?_errchain_errorMessage (o : JSObj) (a b c : JSVal) :
    oGet? (oSet (oSet (oSet o "__typename" a) "errorMessage" b) "showError" c) "errorMessage"
      = some b := by
  rw [oGet?_oSet_ne _ _ _ _ (by decide), oGet?_oSet_self]

theorem oGet?_errchain_showError (o : JSObj) (a b c : JSVal) :
    oGet? (oSet (oSet (oSet o "__typename" a) "errorMessage" b) "showError" c) "showError"
      = some c :=
  oGet?_oSet_self _ _ _

theorem oGet?_touchchain (o : JSObj) (a : JSVal) :
    oGet? (oSet (oSet o "__typename" a) "touched" (JSVal.vBool true)) "touched"
      = some (JSVal.vBool true) :=
  oGet?_oSet_self _ _ _

/-- C4: RESET_FORM(f) empties forms[f] and RESET_FORM_META(f) empties
formsMeta[f]; in both cases every other form's values and metadata are
unchanged (for RESET_FORM the whole metadata map is untouched, and
symmetrically for RESET_FORM_META). -/
theorem C4_reset_form_and_meta (init s : FormState) (f : String) :
    (oGet? (formReducer init s (.resetForm f)).forms f = some [] ∧
      (∀ g, g ≠ f → oGet? (formReducer init s (.resetForm f)).forms g = oGet? s.forms g) ∧
      (formReducer init s (.resetForm f)).formsMeta = s.formsMeta) ∧
    (oGet? (formReducer init s (.resetFormMeta f)).formsMeta f = some [] ∧
      (∀ g, g ≠ f → oGet? (formReducer init s (.resetFormMeta f)).formsMeta g
          = oGet? s.formsMeta g) ∧
      (formReducer init s (.resetFormMeta f)).forms = s.forms) := by
  refine ⟨⟨?_, ?_, rfl⟩, ?_, ?_, rfl⟩
  · exact oGet?_oSet_self _ _ _
  · exact fun g hg => oGet?_oSet_ne _ _ _ _ hg
  · exact oGet?_oSet_self _ _ _
  · exact fun g hg => oGet?_oSet_ne _ _ _ _ hg

theorem C4_reset_form_and_meta_witness :
    oGet? (formReducer exState exState (.resetForm "login")).forms "login" = some [] ∧
    oGet? (formReducer exState exState (.resetForm "login")).forms "other"
        = oGet? exState.forms "other" ∧
    (formReducer exState exState (.resetFormMeta "login")).forms = exState.forms :=
  ⟨(C4_reset_form_and_meta exState exState "login").1.1,
   (C4_reset_form_and_meta exState exState "login").1.2.1 "other" (by decide),
   (C4_reset_form_and_meta exState exState "login").2.2.2⟩

/-- C5: SET_FORM_FIELD_VALUE(f, k, v) sets forms[f][k] to v, preserves the
sibling fields of forms[f], leaves every other form and the whole metadata
map unchanged, and treats a missing form f as the empty object, producing
forms[f] = {k: v}. -/
theorem C5_set_form_field_value (init s : FormState) (f k : String) (v : JSVal) :
    oGet? (formReducer init s (.setFormFieldValue f k v)).forms f
        = some (oSet (getOrEmpty s.forms f) k v) ∧
    oGet? (oSet (getOrEmpty s.forms f) k v) k = some v ∧
    (∀ k', k' ≠ k →
      oGet? (oSet (getOrEmpty s.forms f) k v) k' = oGet? (getOrEmpty s.forms f) k') ∧
    (∀ g, g ≠ f →
      oGet? (formReducer init s (.setFormFieldValue f k v)).forms g = oGet? s.forms g) ∧
    (formReducer init s (.setFormFieldValue f k v)).formsMeta = s.formsMeta ∧
    (oGet? s.forms f = none →
      oGet? (formReducer init s (.setFormFieldValue f k v)).forms f = some [(k, v)]) := by
  refine ⟨oGet?_oSet_self _ _ _, oGet?_oSet_self _ _ _,
    fun k' hk => oGet?_oSet_ne _ _ _ _ hk,
    fun g hg => oGet?_oSet_ne _ _ _ _ hg, rfl, fun habs => ?_⟩
  have hbase : getOrEmpty s.forms f = [] := by simp [getOrEmpty, habs]
  calc oGet? (formReducer init s (.setFormFieldValue f k v)).forms f
      = some (oSet (getOrEmpty s.forms f) k v) := oGet?_oSet_self _ _ _
    _ = some [(k, v)] := by rw [hbase]; rfl

theorem C5_set_form_field_value_witness :
    readFormField (formReducer exState exState
        (.setFormFieldValue "login" "user" (.vStr "bob"))) "login" "user" = .vStr "bob" ∧
    oGet? (formReducer exState exState
        (.setFormFieldValue "signup" "email" (.vStr "a@b"))).forms "signup"
      = some [("email", .vStr "a@b")] := by
  constructor
  · have h := (C5_set_form_field_value exState exState "login" "user" (.vStr "bob")).1
    have h2 := (C5_set_form_field_value exState exState "login" "user" (.vStr "bob")).2.1
    simp [readFormField, h, h2]
  · exact (C5_set_form_field_value exState exState "signup" "email" (.vStr "a@b")).2.2.2.2.2
      rfl

/-- C6: starting from the initial state captured at provider construction,
folding the reducer over any action list and then dispatching RESET yields
exactly that captured initial state. -/
theorem C6_reset_restores_initial (init : FormState) (actions : List FormAction) :
    List.foldl (formReducer init) init (actions ++ [.reset]) = init := by
  rw [List.foldl_append]
  rfl

/-- C7: after handleChange(f, k, v, err) — the three dispatches value-set,
touched-set, error-set in order — the state has forms[f][k] = v,
formsMeta[f][k].touched = true, formsMeta[f][k].errorMessage = err, and
formsMeta[f][k].showError = (err !== undefined). -/
theorem C7_handleChange_effects (init s : FormState) (f k : String) (v : JSVal)
    (err : Option String) :
    readFormField (handleChange init s f k v err) f k = v ∧
    jsProp (readMetaField (handleChange init s f k v err) f k) "touched" = .vBool true ∧
    jsProp (readMetaField (handleChange init s f k v err) f k) "errorMessage"
        = (match err with | some e => .vStr e | none => .vUndefined) ∧
    jsProp (readMetaField (handleChange init s f k v err) f k) "showError"
        = .vBool err.isSome := by
  refine ⟨?_, ?_, ?_, ?_⟩ <;>
    simp [handleChange, setAndShowError, formReducer, readFormField, readMetaField,
      getOrEmpty, setAndShowErrorMeta, spreadEntries, oMergeL, jsProp,
      oGet?_oSet_self, oGet?_errchain_touched, oGet?_errchain_errorMessage,
      oGet?_errchain_showError, oGet?_touchchain]

theorem le_foldr_max (l : List Nat) (x : Nat) (hx : x ∈ l) : x ≤ l.foldr max 0 := by
  induction l with
  | nil => cases hx
  | cons a t ih =>
    rcases List.mem_cons.mp hx with h | h
    · subst h; exact le_max_left _ _
    · exact le_trans (ih h) (le_max_right _ _)

theorem sum_map_le_length_mul {α : Type} (l : List α) (f : α → Nat) (c : Nat)
    (hb : ∀ y ∈ l, f y ≤ c) : (l.map f).sum ≤ l.length * c := by
  induction l with
  | nil => simp
  | cons a t ih =>
    simp only [List.map_cons, List.sum_cons, List.length_cons]
    have ht := ih (fun y hy => hb y (List.mem_cons_of_mem _ hy))
    have ha := hb a (List.mem_cons_self _ _)
    calc f a + (t.map f).sum ≤ c + t.length * c := Nat.add_le_add ha ht
      _ = (t.length + 1) * c := by ring

theorem hLookup_mem (h : Heap) (a : Nat) (n : HNode) (hl : hLookup h a = some n) :
    ∃ p ∈ h, p.2 = n ∧ p.1 = a := by
  unfold hLookup at hl
  cases hf : h.find? (fun p => p.1 == a) with
  | none => rw [hf] at hl; cases hl
  | some p =>
    rw [hf] at hl
    have hl2 : p.2 = n := by simpa using hl
    have hmem := List.mem_of_find?_eq_some hf
    have hpred := List.find?_some hf
    exact ⟨p, hmem, hl2, by simpa [beq_iff_eq] using hpred⟩

theorem ref_mem_domainVals (h : Heap) (a : Nat) (n : HNode) (hl : hLookup h a = some n) :
    HVal.ref a ∈ domainVals h := by
  obtain ⟨p, hmem, -, hpa⟩ := hLookup_mem h a n hl
  unfold domainVals hAddrs
  rw [List.mem_toFinset]
  exact List.mem_map.mpr ⟨p.1, List.mem_map.mpr ⟨p, hmem, rfl⟩, by rw [hpa]⟩

theorem mem_domainVals_of_addr (h : Heap) (a : Nat) (ha : a ∈ hAddrs h) :
    HVal.ref a ∈ domainVals h := by
  unfold domainVals
  rw [List.mem_toFinset]
  exact List.mem_map.mpr ⟨a, ha, rfl⟩

theorem entriesOf_vals (h : Heap) (a : Nat) (n : HNode) (hl : hLookup h a = some n) :
    (entriesOf h (.ref a)).map (·.2) = nodeVals n := by
  cases n with
  | hObj fs => simp [entriesOf, hl, nodeVals]
  | hArr es =>
    simp only [entriesOf, hl, nodeVals, List.map_map]
    exact List.enum_map_snd es

theorem entriesOf_length_le (h : Heap) (e : HVal) : (entriesOf h e).length ≤ maxEnt h := by
  cases e with
  | prim p => simp [entriesOf]
  | ref a =>
    cases hl : hLookup h a with
    | none => simp [entriesOf, hl]
    | some n =>
      obtain ⟨p, hmem, hpn, -⟩ := hLookup_mem h a n hl
      have hle : nodeEnt n ≤ maxEnt h :=
        le_foldr_max _ _ (List.mem_map.mpr ⟨p, hmem, by rw [hpn]⟩)
      cases n with
      | hObj fs => simpa [entriesOf, hl, nodeEnt] using hle
      | hArr es => simpa [entriesOf, hl, nodeEnt] using hle

theorem arrRefElems_spec (h : Heap) (val : HVal) (es : List HVal)
    (ha : arrRefElems h val = some es) :
    es.length ≤ maxArr h ∧ ∃ p ∈ h, p.2 = HNode.hArr es := by
  cases val with
  | prim p => simp [arrRefElems] at ha
  | ref a =>
    cases hl : hLookup h a with
    | none => simp [arrRefElems, hl] at ha
    | some n =>
      cases n with
      | hObj fs => simp [arrRefElems, hl] at ha
      | hArr es' =>
        have hes : es' = es := by simpa [arrRefElems, hl] using ha
        subst hes
        obtain ⟨p, hmem, hpn, -⟩ := hLookup_mem h a _ hl
        refine ⟨?_, p, hmem, hpn⟩
        apply le_foldr_max
        apply List.mem_map.mpr
        exact ⟨p, hmem, by rw [hpn]⟩

theorem elemStep_ok (h : Heap) (cond : HVal → Bool) (vis : List HVal) (x : HVal)
    (l : List HVal) (hok : elemStep h cond vis x = .ok l) :
    (∀ y ∈ l, y ∉ vis ∧ (∃ a, y = HVal.ref a) ∧ y = x) ∧ l.length ≤ 1 := by
  cases h1 : isFieldMetaH h x with
  | true =>
    cases h2 : cond x with
    | true =>
      have hl : [] = l := by simpa [elemStep, h1, h2] using hok
      subst hl; exact ⟨by simp, by simp⟩
    | false => simp [elemStep, h1, h2] at hok
  | false =>
    cases x with
    | prim p =>
      have hl : [] = l := by simpa [elemStep, h1, typeofIsObject] using hok
      subst hl; exact ⟨by simp, by simp⟩
    | ref a =>
      by_cases hv : HVal.ref a ∈ vis
      · have hl : [] = l := by simpa [elemStep, h1, typeofIsObject, hv] using hok
        subst hl; exact ⟨by simp, by simp⟩
      · have hl : [HVal.ref a] = l := by simpa [elemStep, h1, typeofIsObject, hv] using hok
        subst hl
        refine ⟨fun y hy => ?_, by simp⟩
        rcases List.mem_singleton.mp hy with rfl
        exact ⟨hv, ⟨a, rfl⟩, rfl⟩

theorem stepElems_ok (h : Heap) (cond : HVal → Bool) (vis : List HVal) (es l : List HVal)
    (hok : stepElems h cond vis es = .ok l) :
    (∀ y ∈ l, y ∉ vis ∧ (∃ a, y = HVal.ref a) ∧ y ∈ es) ∧ l.length ≤ es.length := by
  induction es generalizing l with
  | nil =>
    unfold stepElems at hok
    simp at hok; subst hok; exact ⟨by simp, by simp⟩
  | cons x rest ih =>
    unfold stepElems at hok
    cases h1 : elemStep h cond vis x with
    | error u => rw [h1] at hok; cases hok
    | ok l1 =>
      rw [h1] at hok
      cases h2 : stepElems h cond vis rest with
      | error u => rw [h2] at hok; cases hok
      | ok l2 =>
        rw [h2] at hok
        have hl : l = l1 ++ l2 := by simpa using hok.symm
        subst hl
        obtain ⟨m1, b1⟩ := elemStep_ok h cond vis x l1 h1
        obtain ⟨m2, b2⟩ := ih l2 h2
        constructor
        · intro y hy
          rcases List.mem_append.mp hy with hy1 | hy2
          · obtain ⟨hnv, hr, hyx⟩ := m1 y hy1
            exact ⟨hnv, hr, by rw [hyx]; exact List.mem_cons_self _ _⟩
          · obtain ⟨hnv, hr, hyr⟩ := m2 y hy2
            exact ⟨hnv, hr, List.mem_cons_of_mem _ hyr⟩
        · simp only [List.length_append, List.length_cons]
          omega

theorem processValue_ok (h : Heap) (cond : HVal → Bool) (vis : List HVal) (val : HVal)
    (l : List HVal) (hok : processValue h cond vis val = .ok l) :
    (∀ y ∈ l, y ∉ vis ∧ (∃ a, y = HVal.ref a) ∧
      (y = val ∨ ∃ p ∈ h, ∃ es, p.2 = HNode.hArr es ∧ y ∈ es)) ∧
    l.length ≤ 1 + maxArr h := by
  cases ha : arrRefElems h val with
  | some es =>
    have hok2 : stepElems h cond vis es = .ok l := by
      simpa [processValue, ha] using hok
    obtain ⟨hlen, p, hpmem, hpn⟩ := arrRefElems_spec h val es ha
    obtain ⟨m, b⟩ := stepElems_ok h cond vis es l hok2
    constructor
    · intro y hy
      obtain ⟨hnv, hr, hyes⟩ := m y hy
      exact ⟨hnv, hr, .inr ⟨p, hpmem, es, hpn, hyes⟩⟩
    · omega
  | none =>
    cases val with
    | prim p =>
      have hl : [] = l := by simpa [processValue, ha, typeofIsObject] using hok
      subst hl; exact ⟨by simp, by simp⟩
    | ref a =>
      cases h1 : isFieldMetaH h (.ref a) with
      | true =>
        cases h2 : cond (.ref a) with
        | true =>
          have hl : [] = l := by
            simpa [processValue, ha, typeofIsObject, h1, h2] using hok
          subst hl; exact ⟨by simp, by simp⟩
        | false => simp [processValue, ha, typeofIsObject, h1, h2] at hok
      | false =>
        by_cases hv : HVal.ref a ∈ vis
        · have hl : [] = l := by
            simpa [processValue, ha, typeofIsObject, h1, hv] using hok
          subst hl; exact ⟨by simp, by simp⟩
        · have hl : [HVal.ref a] = l := by
            simpa [processValue, ha, typeofIsObject, h1, hv] using hok
          subst hl
          refine ⟨fun y hy => ?_, by simp only [List.length_singleton]; omega⟩
          rcases List.mem_singleton.mp hy with rfl
          exact ⟨hv, ⟨a, rfl⟩, .inl rfl⟩

theorem stepVals_ok (h : Heap) (cond : HVal → Bool) (vis : List HVal) (vs l : List HVal)
    (hok : stepVals h cond vis vs = .ok l) :
    (∀ y ∈ l, y ∉ vis ∧ (∃ a, y = HVal.ref a) ∧
      (y ∈ vs ∨ ∃ p ∈ h, ∃ es, p.2 = HNode.hArr es ∧ y ∈ es)) ∧
    l.length ≤ vs.length * (1 + maxArr h) := by
  induction vs generalizing l with
  | nil =>
    have hl : [] = l := by simpa [stepVals] using hok
    subst hl; exact ⟨by simp, by simp⟩
  | cons v rest ih =>
    unfold stepVals at hok
    cases h1 : processValue h cond vis v with
    | error u => rw [h1] at hok; cases hok
    | ok l1 =>
      rw [h1] at hok
      cases h2 : stepVals h cond vis rest with
      | error u => rw [h2] at hok; cases hok
      | ok l2 =>
        rw [h2] at hok
        have hl : l = l1 ++ l2 := by simpa using hok.symm
        subst hl
        obtain ⟨m1, b1⟩ := processValue_ok h cond vis v l1 h1
        obtain ⟨m2, b2⟩ := ih l2 h2
        constructor
        · intro y hy
          rcases List.mem_append.mp hy with hy1 | hy2
          · obtain ⟨hnv, hr, hsrc⟩ := m1 y hy1
            refine ⟨hnv, hr, ?_⟩
            rcases hsrc with rfl | harr
            · exact .inl (List.mem_cons_self _ _)
            · exact .inr harr
          · obtain ⟨hnv, hr, hsrc⟩ := m2 y hy2
            refine ⟨hnv, hr, ?_⟩
            rcases hsrc with hmem | harr
            · exact .inl (List.mem_cons_of_mem _ hmem)
            · exact .inr harr
        · simp only [List.length_append, List.length_cons]
          calc l1.length + l2.length
              ≤ (1 + maxArr h) + rest.length * (1 + maxArr h) := Nat.add_le_add b1 b2
            _ = (rest.length + 1) * (1 + maxArr h) := by ring

theorem processNode_ok (h : Heap) (cond : HVal → Bool) (vis : List HVal) (e : HVal)
    (pushed : List HVal) (hok : processNode h cond vis e = .ok pushed) :
    (∀ y ∈ pushed, y ∉ vis ∧ ∃ a, y = HVal.ref a) ∧
    pushed.length ≤ pushBound h ∧
    (WFHeap h → ∀ y ∈ pushed, y ∈ domainVals h) := by
  unfold processNode at hok
  obtain ⟨m, b⟩ := stepVals_ok h cond vis _ pushed hok
  refine ⟨fun y hy => ⟨(m y hy).1, (m y hy).2.1⟩, ?_, ?_⟩
  · calc pushed.length
        ≤ ((entriesOf h e).map (·.2)).length * (1 + maxArr h) := b
      _ ≤ maxEnt h * (1 + maxArr h) := by
          apply Nat.mul_le_mul_right
          simpa using entriesOf_length_le h e
  · intro hwf y hy
    obtain ⟨-, ⟨a, rfl⟩, hsrc⟩ := m y hy
    rcases hsrc with hv | ⟨p, hpmem, es, hpn, hyes⟩
    · cases e with
      | prim pp => simp [entriesOf] at hv
      | ref ea =>
        cases hl : hLookup h ea with
        | none => simp [entriesOf, hl] at hv
        | some n =>
          rw [entriesOf_vals h ea n hl] at hv
          obtain ⟨q, hqmem, hqn, -⟩ := hLookup_mem h ea n hl
          have hrt : a ∈ refTargets n := List.mem_filterMap.mpr ⟨.ref a, hv, rfl⟩
          exact mem_domainVals_of_addr h a (hwf q hqmem a (by rw [hqn]; exact hrt))
    · have hrt : a ∈ refTargets p.2 := by
        rw [hpn]
        exact List.mem_filterMap.mpr ⟨.ref a, hyes, rfl⟩
      exact mem_domainVals_of_addr h a (hwf p hpmem a hrt)

theorem setAdd_toFinset (vis : List HVal) (e : HVal) :
    (setAdd vis e).toFinset = insert e vis.toFinset := by
  unfold setAdd
  by_cases he : e ∈ vis
  · rw [if_pos he, (Finset.insert_eq_self.mpr (List.mem_toFinset.mpr he))]
  · rw [if_neg he]
    exact List.toFinset_cons

theorem mem_setAdd (vis : List HVal) (e x : HVal) :
    x ∈ setAdd vis e ↔ x = e ∨ x ∈ vis := by
  unfold setAdd
  by_cases he : e ∈ vis
  · rw [if_pos he]
    constructor
    · exact .inr
    · rintro (rfl | hx)
      · exact he
      · exact hx
  · rw [if_neg he]
    simp [List.mem_cons]

theorem uCount_setAdd_le (h : Heap) (vis : List HVal) (e : HVal) :
    uCount h (setAdd vis e) ≤ uCount h vis := by
  unfold uCount
  rw [setAdd_toFinset]
  exact Finset.card_le_card
    (Finset.sdiff_subset_sdiff (Finset.Subset.refl _) (Finset.subset_insert _ _))

theorem uCount_visited_succ (h : Heap) (vis : List HVal) (e : HVal)
    (hd : e ∈ domainVals h) (hnv : e ∉ vis) :
    uCount h vis = uCount h (setAdd vis e) + 1 := by
  unfold uCount
  rw [setAdd_toFinset]
  have hmem : e ∈ domainVals h \ vis.toFinset :=
    Finset.mem_sdiff.mpr ⟨hd, fun hc => hnv (List.mem_toFinset.mp hc)⟩
  have hins : domainVals h \ insert e vis.toFinset = (domainVals h \ vis.toFinset).erase e := by
    ext x
    simp only [Finset.mem_sdiff, Finset.mem_insert, Finset.mem_erase]
    tauto
  rw [hins]
  exact (Finset.card_erase_add_one hmem).symm

theorem phiW_dequeued (h : Heap) (vis : List HVal) (e : HVal) (hd : e ∈ domainVals h) :
    phiW h vis e = uCount h (setAdd vis e) + 1 := by
  unfold phiW
  by_cases he : e ∈ vis
  · rw [if_pos he]
    have hs : setAdd vis e = vis := by unfold setAdd; rw [if_pos he]
    rw [hs]
  · rw [if_neg he]
    simpa using uCount_visited_succ h vis e hd he

theorem phiW_mono (h : Heap) (vis : List HVal) (e x : HVal) (hd : e ∈ domainVals h) :
    phiW h (setAdd vis e) x ≤ phiW h vis x := by
  by_cases hx : x = e
  · subst hx
    have hxin : x ∈ setAdd vis x := (mem_setAdd _ _ _).mpr (.inl rfl)
    unfold phiW
    rw [if_pos hxin]
    by_cases hv : x ∈ vis
    · have hs : setAdd vis x = vis := by unfold setAdd; rw [if_pos hv]
      rw [hs, if_pos hv]
    · rw [if_neg hv]
      have := uCount_visited_succ h vis x hd hv
      omega
  · unfold phiW
    have hmem : (x ∈ setAdd vis e) ↔ (x ∈ vis) := by
      rw [mem_setAdd]
      simp [hx]
    have hle := uCount_setAdd_le h vis e
    by_cases hv : x ∈ vis
    · rw [if_pos (hmem.mpr hv), if_pos hv]
      omega
    · rw [if_neg (fun hc => hv (hmem.mp hc)), if_neg hv]
      omega

theorem PhiM_step (h : Heap) (cond : HVal → Bool) (e : HVal) (rest vis pushed : List HVal)
    (hd : e ∈ domainVals h)
    (hok : processNode h cond (setAdd vis e) e = .ok pushed) :
    PhiM h (rest ++ pushed) (setAdd vis e) < PhiM h (e :: rest) vis := by
  obtain ⟨hfresh, hlen, -⟩ := processNode_ok h cond (setAdd vis e) e pushed hok
  have hB2 : 2 ≤ bfsB h := by simp only [bfsB]; omega
  have hBpos : 0 < bfsB h := by omega
  have hB1 : 1 ≤ bfsB h := by omega
  have hpow_pos : 0 < bfsB h ^ uCount h (setAdd vis e) := pow_pos hBpos _
  have hpushed_sum :
      (pushed.map (fun y => bfsB h ^ phiW h (setAdd vis e) y)).sum
        ≤ pushBound h * bfsB h ^ uCount h (setAdd vis e) := by
    calc (pushed.map (fun y => bfsB h ^ phiW h (setAdd vis e) y)).sum
        ≤ pushed.length * bfsB h ^ uCount h (setAdd vis e) := by
          apply sum_map_le_length_mul
          intro y hy
          have hnv : y ∉ setAdd vis e := (hfresh y hy).1
          simp [phiW, if_neg hnv]
      _ ≤ pushBound h * bfsB h ^ uCount h (setAdd vis e) :=
          Nat.mul_le_mul_right _ hlen
  have hrest :
      (rest.map (fun y => bfsB h ^ phiW h (setAdd vis e) y)).sum
        ≤ (rest.map (fun y => bfsB h ^ phiW h vis y)).sum := by
    apply List.sum_le_sum
    intro y hy
    exact Nat.pow_le_pow_right hB1 (phiW_mono h vis e y hd)
  have hhead : pushBound h * bfsB h ^ uCount h (setAdd vis e) < bfsB h ^ phiW h vis e := by
    rw [phiW_dequeued h vis e hd, pow_succ]
    have hlt : pushBound h < bfsB h := by simp only [bfsB]; omega
    calc pushBound h * bfsB h ^ uCount h (setAdd vis e)
        < bfsB h * bfsB h ^ uCount h (setAdd vis e) :=
          mul_lt_mul_of_pos_right hlt hpow_pos
      _ = bfsB h ^ uCount h (setAdd vis e) * bfsB h := mul_comm _ _
  unfold PhiM
  rw [List.map_append, List.sum_append, List.map_cons, List.sum_cons]
  omega

theorem bfsLoop_some (h : Heap) (cond : HVal → Bool) (hwf : WFHeap h) :
    ∀ n q vis, (∀ x ∈ q, x ∈ domainVals h) → PhiM h q vis ≤ n →
      (bfsLoop h cond n q vis).isSome = true := by
  intro n
  induction n with
  | zero =>
    intro q vis hq hphi
    cases q with
    | nil => rfl
    | cons e rest =>
      exfalso
      have hpos : 0 < PhiM h (e :: rest) vis := by
        unfold PhiM
        rw [List.map_cons, List.sum_cons]
        have : 0 < bfsB h ^ phiW h vis e := pow_pos (by simp only [bfsB]; omega) _
        omega
      omega
  | succ n ih =>
    intro q vis hq hphi
    cases q with
    | nil => rfl
    | cons e rest =>
      cases hpn : processNode h cond (setAdd vis e) e with
      | error u => simp [bfsLoop, hpn]
      | ok pushed =>
        have hred : bfsLoop h cond (n + 1) (e :: rest) vis
            = bfsLoop h cond n (rest ++ pushed) (setAdd vis e) := by
          simp [bfsLoop, hpn]
        rw [hred]
        apply ih
        · intro x hx
          rcases List.mem_append.mp hx with hx | hx
          · exact hq x (List.mem_cons_of_mem _ hx)
          · exact (processNode_ok h cond _ e pushed hpn).2.2 hwf x hx
        · have hlt := PhiM_step h cond e rest vis pushed (hq e (List.mem_cons_self _ _)) hpn
          omega

theorem allFieldsMeetCondition_total (h : Heap) (cond : HVal → Bool) (fm : HVal)
    (hwf : WFHeap h) : (allFieldsMeetCondition h fm cond).isSome = true := by
  by_cases hd : fm ∈ domainVals h
  · apply bfsLoop_some h cond hwf (bfsFuel h) [fm] []
    · intro x hx
      rcases List.mem_singleton.mp hx with rfl
      exact hd
    · have hcard : (domainVals h \ (([] : List HVal).toFinset)).card ≤ h.length := by
        calc (domainVals h \ (([] : List HVal).toFinset)).card
            ≤ (domainVals h).card := Finset.card_le_card Finset.sdiff_subset
          _ ≤ ((hAddrs h).map HVal.ref).length := List.toFinset_card_le _
          _ = h.length := by simp [hAddrs]
      have hB1 : 1 ≤ bfsB h := by simp only [bfsB]; omega
      unfold PhiM phiW uCount bfsFuel
      simp only [List.map_cons, List.map_nil, List.sum_cons, List.sum_nil]
      rw [if_neg (List.not_mem_nil fm)]
      have hexp : (domainVals h \ (([] : List HVal).toFinset)).card + 0 ≤ h.length + 1 := by
        omega
      have := Nat.pow_le_pow_right hB1 hexp
      omega
  · have hent : entriesOf h fm = [] := by
      cases fm with
      | prim p => rfl
      | ref a =>
        cases hl : hLookup h a with
        | none => simp [entriesOf, hl]
        | some n => exact absurd (ref_mem_domainVals h a n hl) hd
    have hfpos : 0 < bfsFuel h := pow_pos (by simp only [bfsB]; omega) _
    obtain ⟨m, hm⟩ : ∃ m, bfsFuel h = m + 1 := ⟨bfsFuel h - 1, by omega⟩
    unfold allFieldsMeetCondition
    rw [hm]
    simp [bfsLoop, processNode, hent, stepVals]

/-- C1: the claim states that with validateTouch = false the evaluator
ignores touched state and reports validity from error-freedom alone.  On the
current tree-walking useFormValidity this fails: the hook accepts
validateTouch but never reads it, so the required-but-untouched, error-free
leaf of `h1` yields false even with validateTouch = false (first conjunct),
while the earlier flat implementation of the same hook — the intended
gating — yields true on the same data (second conjunct); the third conjunct
shows the current hook's result is invariant in validateTouch altogether. -/
theorem C1_validateTouch_ignored :
    useFormValidity h1 fm1 "myForm" (some false) = .ok (some false) ∧
    useFormValidityLegacy fm1S "myForm" (some false) = .ok true ∧
    (∀ (h : Heap) (fm : List (String × HVal)) (f : String) (vt vt' : Option Bool),
      useFormValidity h fm f vt = useFormValidity h fm f vt') :=
  ⟨rfl, rfl, fun _ _ _ _ _ => rfl⟩

/-- C2: the claim states that leaf classification is decided by the
`__typename: 'FieldMeta'` marker alone.  On the code it is not: a well-typed
leaf carrying the marker (but only the `touched` field) is rejected, while an
object with the four keys `id`, `required`, `touched`, `errorMessage` and no
marker at all is accepted, and adding the marker to it changes nothing — the
classifier duck-types on the four keys and never reads the marker. -/
theorem C2_classification_not_by_marker :
    isFieldMeta (.vObj [("__typename", .vStr "FieldMeta"), ("touched", .vBool true)])
        = .ok false ∧
    isFieldMeta (.vObj [("id", .vNum 1), ("required", .vBool true),
        ("touched", .vBool true), ("errorMessage", .vUndefined)]) = .ok true ∧
    isFieldMeta (.vObj [("__typename", .vStr "FieldMeta"), ("id", .vNum 1),
        ("required", .vBool true), ("touched", .vBool true),
        ("errorMessage", .vUndefined)]) = .ok true :=
  ⟨rfl, rfl, rfl⟩

/-- C3: the claim (and the spec's example) expects validity true for
`{a: {required: true, touched: true}, b: {required: false, touched: false}}`,
false once `a.touched` is false, and false once `a.errorMessage = "x"` is
added.  The code returns true in all four scenarios: the `a` and `b` objects
lack the `id` (and `errorMessage`) keys, so `isFieldMeta` never classifies
them as leaves and no condition is ever evaluated. -/
theorem C3_validity_example_divergence :
    useFormValidity h3a [("f", .ref 0)] "f" (some true) = .ok (some true) ∧
    useFormValidity h3b [("f", .ref 0)] "f" (some true) = .ok (some true) ∧
    useFormValidity h3c [("f", .ref 0)] "f" (some true) = .ok (some true) ∧
    useFormValidity h3d [("f", .ref 0)] "f" (some true) = .ok (some true) :=
  ⟨rfl, rfl, rfl, rfl⟩

/-- C8: requesting validity for a form whose metadata entry is absent
(undefined) raises the missing-metadata error and yields no boolean; for a
present (non-undefined) entry over a well-formed heap the hook raises no such
error and produces a boolean validity value. -/
theorem C8_missing_metadata_error (h : Heap) (formsMeta : List (String × HVal))
    (formName : String) (validateTouch : Option Bool) :
    (oGet? formsMeta formName = none →
      useFormValidity h formsMeta formName validateTouch
        = .error (missingMetaMsg formName)) ∧
    (∀ fm, oGet? formsMeta formName = some fm → fm ≠ .prim .undefinedv → WFHeap h →
      ∃ b, useFormValidity h formsMeta formName validateTouch = .ok (some b)) := by
  constructor
  · intro hnone
    unfold useFormValidity
    rw [hnone]
  · intro fm hsome hne hwf
    obtain ⟨t, ht⟩ := Option.isSome_iff_exists.mp
      (allFieldsMeetCondition_total h (condTouched h) fm hwf)
    obtain ⟨e, he⟩ := Option.isSome_iff_exists.mp
      (allFieldsMeetCondition_total h (condNoError h) fm hwf)
    refine ⟨t && e, ?_⟩
    unfold useFormValidity
    rw [hsome]
    cases fm with
    | prim p =>
      cases p with
      | undefinedv => exact absurd rfl hne
      | boolv b => simp [ht, he]
      | numv n => simp [ht, he]
      | strv s => simp [ht, he]
    | ref a => simp [ht, he]

theorem C8_missing_metadata_error_witness :
    useFormValidity h1 [] "missing" none = .error (missingMetaMsg "missing") ∧
    ∃ b, useFormValidity h1 fm1 "myForm" none = .ok (some b) :=
  ⟨(C8_missing_metadata_error h1 [] "missing" none).1 rfl,
   (C8_missing_metadata_error h1 fm1 "myForm" none).2 (.ref 0) rfl
     (fun hc => HVal.noConfusion hc) (by decide)⟩

/-- C9: on every finite well-formed metadata object graph — including graphs
with shared (aliased) sub-objects and even cycles — the breadth-first walk of
allFieldsMeetCondition terminates and produces a boolean, for every
condition: the visited set prevents re-enqueueing of visited objects, so each
distinct object is processed a bounded number of times. -/
theorem C9_walk_terminates (h : Heap) (cond : HVal → Bool) (formMeta : HVal)
    (hwf : WFHeap h) : (allFieldsMeetCondition h formMeta cond).isSome = true :=
  allFieldsMeetCondition_total h cond formMeta hwf

theorem C9_walk_terminates_witness :
    WFHeap h9 ∧ (allFieldsMeetCondition h9 (.ref 0) (fun _ => true)).isSome = true :=
  ⟨by decide, C9_walk_terminates h9 (fun _ => true) (.ref 0) (by decide)⟩

/-- C10: for every non-null value, isFieldMeta returns exactly the
presence-check of the four keys `id`, `required`, `touched`, `errorMessage`
(so it never inspects `__typename`); consequently both leaf shapes built by
useFormHandler — `{__typename, touched}` and
`{__typename, errorMessage, showError}` — are rejected, and the validity walk
treats such a leaf as a nested metadata object: on `h10` a condition that
fails on every leaf still yields true because the handler-built leaf is
enqueued instead of being condition-checked. -/
theorem C10_isFieldMeta_duck_typing :
    (∀ v : JSVal, v ≠ .vNull → isFieldMeta v = .ok (fourKeysObj v)) ∧
    isFieldMeta (.vObj [("__typename", .vStr "FieldMeta"), ("touched", .vBool true)])
        = .ok false ∧
    isFieldMeta (.vObj [("__typename", .vStr "FieldMeta"),
        ("errorMessage", .vUndefined), ("showError", .vBool false)]) = .ok false ∧
    allFieldsMeetCondition h10 (.ref 0) (fun _ => false) = some true := by
  refine ⟨fun v hv => ?_, rfl, rfl, rfl⟩
  cases v with
  | vNull => exact absurd rfl hv
  | vUndefined => rfl
  | vBool b => rfl
  | vNum n => rfl
  | vStr s => rfl
  | vObj fs => rfl
  | vArr es => rfl

theorem C10_isFieldMeta_duck_typing_witness :
    isFieldMeta (.vObj [("id", .vNum 7), ("required", .vBool true),
        ("touched", .vBool false), ("errorMessage", .vStr "e")])
      = .ok (fourKeysObj (.vObj [("id", .vNum 7), ("required", .vBool true),
        ("touched", .vBool false), ("errorMessage", .vStr "e")])) :=
  C10_isFieldMeta_duck_typing.1 _ (fun hc => JSVal.noConfusion hc)
